import Mathlib

set_option linter.unusedVariables false
set_option maxRecDepth 16000

/-!
Shallow embedding of the MoatMetrics model-residency / query-caching /
adaptive-batching core (`src/ai/memory_manager.py` and
`src/ai/advanced_ml_optimizer.py`), together with proofs settling the
specification claims about it.

Modelling conventions:
* Python `float` values (sizes in GB, timestamps, similarities) are modelled
  as `ℚ`.
* Python `dict`s are modelled as insertion-ordered association lists with
  unique keys; `dictSet` updates an existing key in place (keeping its
  position, as CPython does) and appends a fresh key at the end.
* External collaborators (the Ollama HTTP client, `sklearn`'s fitted
  regressors and `cosine_similarity`, the TF-IDF vectorizer, `psutil`
  readings, the wall clock) are modelled as explicit oracle parameters.
  An oracle returning `none` models the library call raising an exception.
* `sorted(..., key=...)` in Python is a stable sort; it is modelled by
  `stableSortBy`, an insertion sort that keeps the original relative order
  of elements whose keys compare equal.
-/

/-- Python-dict lookup on an association list: the value stored at key `k`. -/
def dictGet {α : Type} : List (String × α) → String → Option α
  | [], _ => none
  | (k', v) :: rest, k => if k' = k then some v else dictGet rest k

/-- Python-dict assignment `d[k] = v`: overwrite in place if the key exists
(keeping its position), otherwise append the new binding at the end. -/
def dictSet {α : Type} : List (String × α) → String → α → List (String × α)
  | [], k, v => [(k, v)]
  | (k', v') :: rest, k, v =>
    if k' = k then (k, v) :: rest else (k', v') :: dictSet rest k v

/-- Python `k in d`. -/
def dictContains {α : Type} (d : List (String × α)) (k : String) : Bool :=
  (dictGet d k).isSome

/-- One step of stable insertion: place `x` before the first element `y`
with `lt x y`, hence after every earlier element whose key ties with `x`. -/
def insortBy {α : Type} (lt : α → α → Bool) (x : α) : List α → List α
  | [] => [x]
  | y :: ys => if lt x y then x :: y :: ys else y :: insortBy lt x ys

/-- Stable sort (models Python's `sorted`): insert the elements in their
original order, each after all elements that compare equal to it. -/
def stableSortBy {α : Type} (lt : α → α → Bool) (xs : List α) : List α :=
  xs.foldl (fun acc x => insortBy lt x acc) []

/-! ## `src/ai/memory_manager.py` -/

/-- `ModelInfo` dataclass (memory_manager.py lines 20-29). -/
structure ModelInfo where
  name : String
  size_gb : ℚ
  last_used : ℚ
  load_time : ℚ
  usage_count : ℕ
  priority : ℤ
  status : String := "unloaded"
deriving Repr, DecidableEq

/-- The residency-relevant state of `AIMemoryManager` (memory_manager.py
lines 114-141).  `loaded_models` and `model_specs` are Python dicts keyed by
model name.  In Python, once a model has been loaded the very same
`ModelInfo` object is referenced from both dicts; reads of
`model_specs[name]` after that point see the mutated object.  The embedding
keeps `model_specs` as the pristine catalog and resolves reads through
`loaded_models` first (see `smartModelLoad`), which is observationally the
same. -/
structure AIMemoryManager where
  max_memory_gb : ℚ
  loaded_models : List (String × ModelInfo)
  model_specs : List (String × ModelInfo)
deriving Repr, DecidableEq

/-- `sum(model.size_gb for model in ... if model.status == "loaded")`. -/
def sumLoaded : List (String × ModelInfo) → ℚ
  | [] => 0
  | (_, v) :: d => (if v.status = "loaded" then v.size_gb else 0) + sumLoaded d

/-- `AIMemoryManager._get_current_memory_usage` (lines 214-216). -/
def getCurrentMemoryUsage (m : AIMemoryManager) : ℚ :=
  sumLoaded m.loaded_models

/-- The sort key of `_free_memory_for_model`:
`key=lambda x: (x[1].priority, x[1].last_used)` compared lexicographically,
as a strict Boolean comparison for the stable sort. -/
def evictKeyLt (a b : String × ModelInfo) : Bool :=
  if a.2.priority = b.2.priority then decide (a.2.last_used < b.2.last_used)
  else decide (a.2.priority < b.2.priority)

/-- The eviction loop of `_free_memory_for_model` (lines 232-242): walk the
sorted loaded models; stop as soon as `current - freed ≤ target`, otherwise
mark the model `"unloaded"` (an in-place mutation of the object held in
`loaded_models`, i.e. a keyed update) and continue.  Returns the updated
dict together with the names unloaded, in order. -/
def evictLoop (target current : ℚ) :
    ℚ → List (String × ModelInfo) → List (String × ModelInfo) →
    List (String × ModelInfo) × List String
  | _, [], d => (d, [])
  | freed, (name, info) :: rest, d =>
    if current - freed ≤ target then (d, [])
    else
      let res := evictLoop target current (freed + info.size_gb) rest
        (dictSet d name { info with status := "unloaded" })
      (res.1, name :: res.2)

/-- `AIMemoryManager._free_memory_for_model` (lines 218-242). -/
def freeMemoryForModel (m : AIMemoryManager) (required_gb : ℚ) :
    AIMemoryManager × List String :=
  let current := getCurrentMemoryUsage m
  let target := m.max_memory_gb - required_gb
  if current ≤ target then (m, [])
  else
    let loadedList := m.loaded_models.filter (fun p => p.2.status = "loaded")
    let sortedModels := stableSortBy evictKeyLt loadedList
    let res := evictLoop target current 0 sortedModels m.loaded_models
    ({ m with loaded_models := res.1 }, res.2)

/-- Lines 254-297 of `smart_model_load`: the path taken when the model is
not currently loaded.  Oracles: `chatOk` is whether the load probe
`ollama.chat(...)` succeeds, `now` the wall clock at the end of the call,
`load_dur` the measured load duration. -/
def smartModelLoadSlow (m : AIMemoryManager) (model_name : String)
    (chatOk : Bool) (now load_dur : ℚ) : Bool × AIMemoryManager :=
  match dictGet m.model_specs model_name with
  | none => (false, m)  -- "Unknown model" (lines 255-257)
  | some specInfo =>
    -- aliasing: after a first load the live object sits in loaded_models
    let model_info := (dictGet m.loaded_models model_name).getD specInfo
    let required := model_info.size_gb
    let current := getCurrentMemoryUsage m
    let m1 := if m.max_memory_gb < current + required then
      (freeMemoryForModel m required).1 else m
    if chatOk then
      let info' := { model_info with
        last_used := now,
        load_time := load_dur,
        usage_count := model_info.usage_count + 1,
        status := "loaded" }
      (true, { m1 with
        loaded_models := dictSet m1.loaded_models model_name info' })
    else
      -- except branch (lines 294-297): status reverts to "unloaded";
      -- loaded_models is touched only if it already held this object
      let info' := { model_info with status := "unloaded" }
      (false, if dictContains m.loaded_models model_name then
        { m1 with loaded_models := dictSet m1.loaded_models model_name info' }
      else m1)

/-- `AIMemoryManager.smart_model_load` (lines 244-297), run under the
loading lock, as one atomic step.  Returns the Python result
(`True`/`False`) and the new state. -/
def smartModelLoad (m : AIMemoryManager) (model_name : String)
    (chatOk : Bool) (now load_dur : ℚ) : Bool × AIMemoryManager :=
  match dictGet m.loaded_models model_name with
  | some info =>
    if info.status = "loaded" then
      -- fast path (lines 248-252): touch last_used / usage_count
      (true, { m with loaded_models :=
        (dictSet m.loaded_models model_name
          { info with last_used := now,
                      usage_count := info.usage_count + 1 }) })
    else smartModelLoadSlow m model_name chatOk now load_dur
  | none => smartModelLoadSlow m model_name chatOk now load_dur

/-- `AIMemoryManager.get_optimal_model` (lines 299-310).  The
`urgency == "high"` branch only logs; both branches return `model_name`. -/
def getOptimalModel (m : AIMemoryManager) (task_type urgency : String) : String :=
  let model_name := "tinyllama"
  if urgency == "high" && (match dictGet m.loaded_models model_name with
      | some info => info.status == "loaded"
      | none => false) then
    model_name
  else
    model_name

/-- One `smart_model_load` call together with its environment oracles. -/
structure LoadCall where
  model_name : String
  chatOk : Bool
  now : ℚ
  load_dur : ℚ

/-- Run a sequence of `smart_model_load` calls. -/
def runCalls (m : AIMemoryManager) : List LoadCall → AIMemoryManager
  | [] => m
  | c :: cs => runCalls (smartModelLoad m c.model_name c.chatOk c.now c.load_dur).2 cs

/-! ## `src/ai/advanced_ml_optimizer.py` — `AdaptiveBatchingEngine` -/

/-- One entry of `pending_requests` (advanced_ml_optimizer.py lines 92-101).
The request payload (`Dict[str, Any]`) is opaque to the scheduler and is
modelled as a string. -/
structure PendingRequest where
  data : String
  timestamp : ℚ
  batch_id : ℕ
deriving Repr, DecidableEq

/-- One record of `batch_history` (lines 151-163). -/
structure BatchRecord where
  batch_size : ℕ
  processing_time : ℚ
  avg_query_length : ℚ
  system_load : ℚ
  memory_usage : ℚ
  timestamp : ℚ
deriving Repr, DecidableEq

/-- State of `AdaptiveBatchingEngine` (lines 52-61).  The fitted sklearn
regressor is external; it is modelled as an oracle `ℕ → Option ℚ` mapping a
candidate batch size (the only feature `_predict_optimal_batch_size` varies)
to the predicted per-item processing time, with `none` modelling
`predict` raising.  `performance_model = none` models the Python field still
being `None` (falsy). -/
structure AdaptiveBatchingEngine where
  max_batch_size : ℕ
  pending_requests : List PendingRequest
  batch_history : List BatchRecord
  performance_model : Option (ℕ → Option ℚ)

/-- `AdaptiveBatchingEngine.add_request` (lines 92-101): append to the FIFO
queue; the returned `batch_id` is the queue length at append time. -/
def addRequest (e : AdaptiveBatchingEngine) (request_data : String) (now : ℚ) :
    ℕ × AdaptiveBatchingEngine :=
  let batch_id := e.pending_requests.length
  (batch_id, { e with pending_requests :=
    e.pending_requests ++ [⟨request_data, now, batch_id⟩] })

/-- `AdaptiveBatchingEngine._predict_optimal_batch_size` (lines 118-149).
With no model (or an empty queue) it returns the static
`min(len(pending_requests), max_batch_size)`.  Otherwise it scans candidate
sizes `1 .. min(len(pending)+1, max_batch_size+1) - 1`, keeping the size of
least predicted `time * size`, starting from `best_size = 1` and
`best_efficiency = inf`; a raising prediction (`none`) is skipped by the
bare `except: continue`. -/
def predictOptimalBatchSize (e : AdaptiveBatchingEngine) : ℕ :=
  match e.performance_model with
  | none => min e.pending_requests.length e.max_batch_size
  | some predict =>
    if e.pending_requests.isEmpty then
      min e.pending_requests.length e.max_batch_size
    else
      let sizes := List.range' 1 (min e.pending_requests.length e.max_batch_size)
      (sizes.foldl (fun best size =>
        match predict size with
        | none => best
        | some t =>
          let efficiency := t * size
          match best.2 with
          | none => (size, some efficiency)
          | some b => if efficiency < b then (size, some efficiency) else best)
        ((1 : ℕ), (none : Option ℚ))).1

/-- `AdaptiveBatchingEngine.get_optimal_batch` (lines 103-116): on an empty
queue return `[]`; otherwise dequeue `optimal_size` requests (or all of
them) in FIFO order. -/
def getOptimalBatch (e : AdaptiveBatchingEngine) :
    List PendingRequest × AdaptiveBatchingEngine :=
  if e.pending_requests.isEmpty then ([], e)
  else
    let optimal_size := predictOptimalBatchSize e
    (e.pending_requests.take optimal_size,
     { e with pending_requests := e.pending_requests.drop optimal_size })

/-- `deque(maxlen=100)` append for `batch_history`. -/
def pushHistory (h : List BatchRecord) (r : BatchRecord) : List BatchRecord :=
  let h' := h ++ [r]
  if 100 < h'.length then h'.drop (h'.length - 100) else h'

/-- `AdaptiveBatchingEngine._train_performance_model` (lines 63-90).  The
`Ridge(alpha=1.0).fit` call is external: `fitOracle = .ok f` yields the
fitted predictor `f`; `.error ()` models `fit` raising.  There is no
`try/except` in the source, so a raising fit propagates to the caller
(second component `true`); note that `self.performance_model` has already
been assigned the fresh regressor before `fit` runs, so on failure the
engine is left with an unfitted model, modelled as the all-raising
predictor. -/
def trainPerformanceModel (e : AdaptiveBatchingEngine)
    (fitOracle : Except Unit (ℕ → Option ℚ)) : AdaptiveBatchingEngine × Bool :=
  if e.batch_history.length < 10 then (e, false)
  else
    match fitOracle with
    | .ok f => ({ e with performance_model := some f }, false)
    | .error _ => ({ e with performance_model := some (fun _ => none) }, true)

/-- `AdaptiveBatchingEngine.record_batch_performance` (lines 151-167).
`sysload`/`mem` are the `psutil` readings at the call.  The second
component of the result is whether an exception escaped to the caller. -/
def recordBatchPerformance (e : AdaptiveBatchingEngine) (batch_size : ℕ)
    (processing_time avg_query_length sysload mem now : ℚ)
    (fitOracle : Except Unit (ℕ → Option ℚ)) : AdaptiveBatchingEngine × Bool :=
  let e1 := { e with batch_history := (pushHistory e.batch_history
    ⟨batch_size, processing_time, avg_query_length, sysload, mem, now⟩) }
  if e1.batch_history.length % 10 = 0 then trainPerformanceModel e1 fitOracle
  else (e1, false)

/-! ## `src/ai/advanced_ml_optimizer.py` — `SemanticCacheEngine` -/

/-- Values of the response dictionaries (`Dict[str, Any]`): enough structure
for the annotations the cache adds. -/
inductive JVal where
  | s (v : String)
  | q (v : ℚ)
  | b (v : Bool)
deriving Repr, DecidableEq

/-- A response payload: a Python dict, insertion-ordered. -/
def Response : Type := List (String × JVal)

instance : DecidableEq Response := by
  unfold Response
  infer_instance

/-- A cache entry as stored by `cache_response` (lines 263-269). -/
structure CacheEntry where
  response : Response
  timestamp : ℚ
  access_count : ℕ
  last_accessed : ℚ
  query_sample : String
deriving DecidableEq

/-- `QueryEmbedding` dataclass (lines 42-49).  The embedding vector is kept
as a rational vector; the numeric similarity computation on it is an oracle
(see `findSimilarQueries`). -/
structure QueryEmbedding where
  embedding : List ℚ
  hash_key : String
  timestamp : ℚ
  usage_count : ℕ
  quality_score : ℚ
deriving DecidableEq

/-- State of `SemanticCacheEngine` (lines 170-181). -/
structure SemanticCacheEngine where
  cache_size : ℕ
  similarity_threshold : ℚ
  cache : List (String × CacheEntry)
  embeddings : List (String × QueryEmbedding)
deriving DecidableEq

/-- `hashlib.md5((query + context_hash).encode()).hexdigest()` (lines 223,
255): md5 is a deterministic function of `query + context_hash` and is
modelled, collision-free, by the concatenation itself. -/
def cacheKey (query context_hash : String) : String :=
  query ++ context_hash

/-- `response.get('confidence', 0.5)` read as a float (line 277). -/
def getConfidence (r : Response) : ℚ :=
  match dictGet r "confidence" with
  | some (.q v) => v
  | _ => 1/2

/-- The `similarities` accumulation loop of
`SemanticCacheEngine._find_similar_queries` (lines 205-216): for every
stored embedding, in dict order, compute the cosine similarity and keep the
pairs at or above the threshold.  `cosSim` is the
`sklearn.cosine_similarity` oracle; `none` models the bare
`except: continue` skipping a pair. -/
def simCandidates (e : SemanticCacheEngine)
    (cosSim : List ℚ → List ℚ → Option ℚ) (query_embedding : List ℚ) :
    List (String × ℚ) :=
  e.embeddings.filterMap (fun kv =>
    match cosSim query_embedding kv.2.embedding with
    | none => none
    | some s => if e.similarity_threshold ≤ s then some (kv.1, s) else none)

/-- The sort-and-truncate of `_find_similar_queries` (lines 202-203, 218):
on an empty embedding store return `[]`, otherwise the top-3 candidates by
similarity descending. -/
def findSimilarQueries (e : SemanticCacheEngine)
    (cosSim : List ℚ → List ℚ → Option ℚ) (query_embedding : List ℚ) :
    List (String × ℚ) :=
  if e.embeddings.isEmpty then []
  else
    (stableSortBy (fun a b => decide (b.2 < a.2))
      (simCandidates e cosSim query_embedding)).take 3

/-- The loop over similar candidates in `get_cached_response`
(lines 236-248): the first candidate key present in the cache wins; its
response is returned annotated with the similarity and the `semantic`
marker, and its recency metadata is refreshed. -/
def serveSimilar (e : SemanticCacheEngine) (now : ℚ) :
    List (String × ℚ) → Option Response × SemanticCacheEngine
  | [] => (none, e)
  | (k, sim) :: rest =>
    match dictGet e.cache k with
    | some entry =>
      let response := dictSet (dictSet entry.response
        "cache_similarity" (.q sim)) "cache_type" (.s "semantic")
      let entry' := { entry with access_count := entry.access_count + 1,
                                 last_accessed := now }
      (some response, { e with cache := dictSet e.cache k entry' })
    | none => serveSimilar e now rest

/-- `SemanticCacheEngine.get_cached_response` (lines 220-250).  `embed` is
the TF-IDF vectorizer oracle. -/
def getCachedResponse (e : SemanticCacheEngine) (embed : String → List ℚ)
    (cosSim : List ℚ → List ℚ → Option ℚ) (query context_hash : String)
    (now : ℚ) : Option Response × SemanticCacheEngine :=
  let query_embedding := embed query
  let cache_key := cacheKey query context_hash
  match dictGet e.cache cache_key with
  | some entry =>
    -- exact hit (lines 227-231): refresh metadata, return the stored response
    let entry' := { entry with access_count := entry.access_count + 1,
                               last_accessed := now }
    (some entry'.response, { e with cache := dictSet e.cache cache_key entry' })
  | none =>
    serveSimilar e now (findSimilarQueries e cosSim query_embedding)

/-- `SemanticCacheEngine._evict_lru_entries` (lines 282-299): sort entries
by `last_accessed` ascending (stable) and delete the oldest
`max(1, len // 5)` from both `cache` and `embeddings`. -/
def evictLruEntries (e : SemanticCacheEngine) : SemanticCacheEngine :=
  if e.cache.isEmpty then e
  else
    let sorted_entries :=
      stableSortBy (fun a b => decide (a.2.last_accessed < b.2.last_accessed))
        e.cache
    let num_to_remove := max 1 (e.cache.length / 5)
    let victims := (sorted_entries.take num_to_remove).map Prod.fst
    { e with
      cache := e.cache.filter (fun kv => !victims.contains kv.1),
      embeddings := e.embeddings.filter (fun kv => !victims.contains kv.1) }

/-- `SemanticCacheEngine.cache_response` (lines 252-280): evict if at
capacity, then insert the entry (`access_count = 1`) and its embedding. -/
def cacheResponse (e : SemanticCacheEngine) (embed : String → List ℚ)
    (query context_hash : String) (response : Response) (now : ℚ) :
    SemanticCacheEngine :=
  let query_embedding := embed query
  let cache_key := cacheKey query context_hash
  let e1 := if e.cache_size ≤ e.cache.length then evictLruEntries e else e
  let entry : CacheEntry :=
    { response := response, timestamp := now, access_count := 1,
      last_accessed := now, query_sample := query.take 100 }
  let emb : QueryEmbedding :=
    { embedding := query_embedding, hash_key := cache_key, timestamp := now,
      usage_count := 1, quality_score := getConfidence response }
  { e1 with cache := dictSet e1.cache cache_key entry,
            embeddings := dictSet e1.embeddings cache_key emb }

/-! ## Generic lemmas about the dict and sorting models -/

/-- Keys of an association list. -/
def keys {α : Type} (d : List (String × α)) : List String :=
  d.map Prod.fst

theorem dictGet_dictSet_self {α : Type} (d : List (String × α)) (k : String)
    (v : α) : dictGet (dictSet d k v) k = some v := by
  induction d with
  | nil => simp [dictGet, dictSet]
  | cons p rest ih =>
    rcases p with ⟨pk, pv⟩
    by_cases h : pk = k
    · simp [dictGet, dictSet, h]
    · simp [dictGet, dictSet, h, ih]

theorem dictGet_dictSet_ne {α : Type} (d : List (String × α)) (k k' : String)
    (v : α) (h : k' ≠ k) : dictGet (dictSet d k v) k' = dictGet d k' := by
  induction d with
  | nil => simp [dictGet, dictSet, Ne.symm h]
  | cons p rest ih =>
    rcases p with ⟨pk, pv⟩
    by_cases hp : pk = k
    · subst hp
      simp [dictGet, dictSet, Ne.symm h]
    · simp [dictGet, dictSet, hp, ih]

theorem mem_of_dictGet {α : Type} {d : List (String × α)} {k : String}
    {v : α} (h : dictGet d k = some v) : (k, v) ∈ d := by
  induction d with
  | nil => simp [dictGet] at h
  | cons p rest ih =>
    rcases p with ⟨pk, pv⟩
    by_cases hp : pk = k
    · subst hp
      simp only [dictGet, if_pos rfl] at h
      obtain rfl : pv = v := Option.some.inj h
      exact List.mem_cons_self _ _
    · simp only [dictGet, hp, if_neg, not_false_iff] at h
      exact List.mem_cons_of_mem _ (ih h)

theorem dictGet_of_mem {α : Type} {d : List (String × α)} {k : String}
    {v : α} (hnd : (keys d).Nodup) (h : (k, v) ∈ d) : dictGet d k = some v := by
  induction d with
  | nil => simp at h
  | cons p rest ih =>
    rcases p with ⟨pk, pv⟩
    simp only [keys, List.map_cons, List.nodup_cons] at hnd
    rcases List.mem_cons.mp h with h1 | h1
    · obtain ⟨rfl, rfl⟩ := Prod.mk.inj h1.symm
      simp [dictGet]
    · have hne : pk ≠ k := by
        intro he
        subst he
        exact hnd.1 (List.mem_map_of_mem Prod.fst h1)
      simp only [dictGet, hne, if_neg, not_false_iff]
      exact ih hnd.2 h1

theorem dictGet_isSome_of_mem {α : Type} {d : List (String × α)}
    {p : String × α} (h : p ∈ d) : (dictGet d p.1).isSome := by
  induction d with
  | nil => simp at h
  | cons q rest ih =>
    rcases q with ⟨qk, qv⟩
    by_cases hq : qk = p.1
    · simp [dictGet, hq]
    · rcases List.mem_cons.mp h with h1 | h1
      · exact absurd (congrArg Prod.fst h1.symm) hq
      · simp [dictGet, hq, ih h1]

theorem keys_dictSet_of_get_some {α : Type} {d : List (String × α)}
    {k : String} (v : α) (h : (dictGet d k).isSome) :
    keys (dictSet d k v) = keys d := by
  induction d with
  | nil => simp [dictGet] at h
  | cons p rest ih =>
    rcases p with ⟨pk, pv⟩
    by_cases hp : pk = k
    · simp [keys, dictSet, hp]
    · simp only [dictGet, hp, if_neg, not_false_iff] at h
      simp only [keys, List.map_cons] at ih ⊢
      simp [dictSet, hp, ih h]

theorem keys_dictSet_of_get_none {α : Type} {d : List (String × α)}
    {k : String} (v : α) (h : dictGet d k = none) :
    keys (dictSet d k v) = keys d ++ [k] := by
  induction d with
  | nil => simp [keys, dictSet]
  | cons p rest ih =>
    rcases p with ⟨pk, pv⟩
    by_cases hp : pk = k
    · simp [dictGet, hp] at h
    · simp only [dictGet, hp, if_neg, not_false_iff] at h
      simp only [keys, List.map_cons] at ih ⊢
      simp [dictSet, hp, ih h]

theorem keysNodup_dictSet {α : Type} {d : List (String × α)} {k : String}
    (v : α) (hnd : (keys d).Nodup) : (keys (dictSet d k v)).Nodup := by
  cases h : dictGet d k with
  | some w =>
    rw [keys_dictSet_of_get_some v (by simp [h])]
    exact hnd
  | none =>
    rw [keys_dictSet_of_get_none v h]
    rw [List.nodup_append]
    refine ⟨hnd, List.nodup_singleton k, ?_⟩
    intro a ha hb
    simp only [List.mem_singleton] at hb
    subst hb
    rcases List.mem_map.mp ha with ⟨p, hp, hfst⟩
    have := dictGet_isSome_of_mem hp
    rw [hfst, h] at this
    simp at this

theorem mem_dictSet {α : Type} {d : List (String × α)} {k : String} {v : α}
    {p : String × α} (h : p ∈ dictSet d k v) : p ∈ d ∨ p = (k, v) := by
  induction d with
  | nil =>
    simp only [dictSet, List.mem_singleton] at h
    right; exact h
  | cons q rest ih =>
    rcases q with ⟨qk, qv⟩
    by_cases hq : qk = k
    · simp only [dictSet, hq, if_pos] at h
      rcases List.mem_cons.mp h with h1 | h1
      · right; exact h1
      · left; exact List.mem_cons_of_mem _ h1
    · simp only [dictSet, hq, if_neg, not_false_iff] at h
      rcases List.mem_cons.mp h with h1 | h1
      · left; exact h1 ▸ List.mem_cons_self _ _
      · rcases ih h1 with h2 | h2
        · left; exact List.mem_cons_of_mem _ h2
        · right; exact h2

theorem dictGet_filter_none {α : Type} {d : List (String × α)} {k : String}
    (p : String × α → Bool) (h : dictGet d k = none) :
    dictGet (d.filter p) k = none := by
  induction d with
  | nil => simp [dictGet]
  | cons q rest ih =>
    rcases q with ⟨qk, qv⟩
    by_cases hq : qk = k
    · simp [dictGet, hq] at h
    · simp only [dictGet, hq, if_neg, not_false_iff] at h
      by_cases hp : p (qk, qv)
      · simp [List.filter_cons, hp, dictGet, hq, ih h]
      · simp [List.filter_cons, hp, ih h]

theorem insortBy_perm {α : Type} (lt : α → α → Bool) (x : α) (l : List α) :
    (insortBy lt x l).Perm (x :: l) := by
  induction l with
  | nil => simp [insortBy]
  | cons y ys ih =>
    by_cases h : lt x y
    · simp [insortBy, h]
    · simp only [insortBy, h, if_neg, not_false_iff, Bool.not_eq_true]
      exact (ih.cons y).trans (List.Perm.swap x y ys)

theorem stableSortBy_perm {α : Type} (lt : α → α → Bool) (l : List α) :
    (stableSortBy lt l).Perm l := by
  suffices h : ∀ (acc : List α),
      (l.foldl (fun acc x => insortBy lt x acc) acc).Perm (acc ++ l) by
    simpa [stableSortBy] using h []
  induction l with
  | nil => simp
  | cons x xs ih =>
    intro acc
    simp only [List.foldl_cons]
    have h1 := ih (insortBy lt x acc)
    have h2 : (insortBy lt x acc ++ xs).Perm ((x :: acc) ++ xs) :=
      (insortBy_perm lt x acc).append_right xs
    have h3 : ((x :: acc) ++ xs).Perm (acc ++ x :: xs) :=
      List.perm_middle.symm
    exact (h1.trans h2).trans h3

theorem insortBy_pairwise {α : Type} {R : α → α → Prop} {lt : α → α → Bool}
    (hT : ∀ a b c, R a b → R b c → R a c)
    (hTrue : ∀ a b, lt a b = true → R a b)
    (hFalse : ∀ a b, lt a b = false → R b a)
    (x : α) {l : List α} (hl : l.Pairwise R) :
    (insortBy lt x l).Pairwise R := by
  induction l with
  | nil => simp [insortBy]
  | cons y ys ih =>
    rcases List.pairwise_cons.mp hl with ⟨hy, hys⟩
    cases h : lt x y with
    | true =>
      simp only [insortBy, h, if_pos]
      refine List.pairwise_cons.mpr ⟨?_, hl⟩
      intro z hz
      rcases List.mem_cons.mp hz with h1 | h1
      · exact h1 ▸ hTrue x y h
      · exact hT x y z (hTrue x y h) (hy z h1)
    | false =>
      simp only [insortBy, h, Bool.false_eq_true, if_neg, not_false_iff]
      refine List.pairwise_cons.mpr ⟨?_, ih hys⟩
      intro z hz
      have h1 := (insortBy_perm lt x ys).mem_iff.mp hz
      rcases List.mem_cons.mp h1 with h2 | h2
      · exact h2 ▸ hFalse x y h
      · exact hy z h2

theorem stableSortBy_pairwise {α : Type} {R : α → α → Prop}
    {lt : α → α → Bool}
    (hT : ∀ a b c, R a b → R b c → R a c)
    (hTrue : ∀ a b, lt a b = true → R a b)
    (hFalse : ∀ a b, lt a b = false → R b a)
    (l : List α) : (stableSortBy lt l).Pairwise R := by
  suffices h : ∀ (acc : List α), acc.Pairwise R →
      (l.foldl (fun acc x => insortBy lt x acc) acc).Pairwise R by
    exact h [] (List.Pairwise.nil)
  induction l with
  | nil => intro acc hacc; simpa using hacc
  | cons x xs ih =>
    intro acc hacc
    simp only [List.foldl_cons]
    exact ih _ (insortBy_pairwise hT hTrue hFalse x hacc)

/-! ## Lemmas about the residency manager -/

/-- No entry named `n` with status `"loaded"` is in the dict. -/
def notLoadedAt (d : List (String × ModelInfo)) (n : String) : Prop :=
  ∀ j, dictGet d n = some j → j.status ≠ "loaded"

theorem sumLoaded_nonneg {d : List (String × ModelInfo)}
    (h : ∀ p ∈ d, 0 ≤ p.2.size_gb) : 0 ≤ sumLoaded d := by
  induction d with
  | nil => simp [sumLoaded]
  | cons p rest ih =>
    have h0 := h p (List.mem_cons_self _ _)
    have hr := ih (fun q hq => h q (List.mem_cons_of_mem _ hq))
    simp only [sumLoaded]
    by_cases hs : p.2.status = "loaded"
    · simp only [hs, if_pos]
      exact add_nonneg h0 hr
    · simp only [hs, if_neg, not_false_iff]
      simpa using hr

theorem sumLoaded_dictSet_same {d : List (String × ModelInfo)} {n : String}
    {i i' : ModelInfo} (hget : dictGet d n = some i)
    (hsize : i'.size_gb = i.size_gb) (hstat : i'.status = i.status) :
    sumLoaded (dictSet d n i') = sumLoaded d := by
  induction d with
  | nil => simp [dictGet] at hget
  | cons p rest ih =>
    rcases p with ⟨pk, pv⟩
    by_cases hp : pk = n
    · subst hp
      simp only [dictGet, if_pos rfl] at hget
      obtain rfl : pv = i := Option.some.inj hget
      simp [dictSet, sumLoaded, hstat, hsize]
    · simp only [dictGet, hp, if_neg, not_false_iff] at hget
      simp [dictSet, hp, sumLoaded, ih hget]

theorem sumLoaded_dictSet_unload {d : List (String × ModelInfo)} {n : String}
    {i i' : ModelInfo} (hget : dictGet d n = some i)
    (hst : i.status = "loaded") (hst' : i'.status ≠ "loaded") :
    sumLoaded (dictSet d n i') = sumLoaded d - i.size_gb := by
  induction d with
  | nil => simp [dictGet] at hget
  | cons p rest ih =>
    rcases p with ⟨pk, pv⟩
    by_cases hp : pk = n
    · subst hp
      simp only [dictGet, if_pos rfl] at hget
      obtain rfl : pv = i := Option.some.inj hget
      simp only [dictSet, if_pos rfl, sumLoaded, hst, if_pos, hst',
        if_neg, not_false_iff]
      ring
    · simp only [dictGet, hp, if_neg, not_false_iff] at hget
      simp only [dictSet, hp, if_neg, not_false_iff, sumLoaded, ih hget]
      ring

theorem sumLoaded_dictSet_load {d : List (String × ModelInfo)} {n : String}
    {i' : ModelInfo} (hget : notLoadedAt d n) (hst' : i'.status = "loaded") :
    sumLoaded (dictSet d n i') = sumLoaded d + i'.size_gb := by
  induction d with
  | nil => simp [dictSet, sumLoaded, hst']
  | cons p rest ih =>
    rcases p with ⟨pk, pv⟩
    by_cases hp : pk = n
    · subst hp
      have hpv : pv.status ≠ "loaded" := hget pv (by simp [dictGet])
      simp only [dictSet, if_pos rfl, sumLoaded, hst', if_pos, hpv,
        if_neg, not_false_iff]
      ring
    · have hget' : notLoadedAt rest n := by
        intro j hj
        exact hget j (by simp [dictGet, hp, hj])
      simp only [dictSet, hp, if_neg, not_false_iff, sumLoaded, ih hget']
      ring

theorem sumLoaded_dictSet_notLoaded {d : List (String × ModelInfo)}
    {n : String} {i' : ModelInfo} (hget : notLoadedAt d n)
    (hst' : i'.status ≠ "loaded") :
    sumLoaded (dictSet d n i') = sumLoaded d := by
  induction d with
  | nil => simp [dictSet, sumLoaded, hst']
  | cons p rest ih =>
    rcases p with ⟨pk, pv⟩
    by_cases hp : pk = n
    · subst hp
      have hpv : pv.status ≠ "loaded" := hget pv (by simp [dictGet])
      simp [dictSet, sumLoaded, hst', hpv]
    · have hget' : notLoadedAt rest n := by
        intro j hj
        exact hget j (by simp [dictGet, hp, hj])
      simp [dictSet, hp, sumLoaded, ih hget']

theorem sumLoaded_eq_filterSum (d : List (String × ModelInfo)) :
    sumLoaded d = ((d.filter (fun p => p.2.status = "loaded")).map
      (fun p => p.2.size_gb)).sum := by
  induction d with
  | nil => simp [sumLoaded]
  | cons p rest ih =>
    by_cases hs : p.2.status = "loaded"
    · simp [sumLoaded, List.filter_cons, hs, ih]
    · simp [sumLoaded, List.filter_cons, hs, ih]

theorem evictLoop_sum (target current : ℚ)
    (l : List (String × ModelInfo)) :
    ∀ (freed : ℚ) (d : List (String × ModelInfo)),
    l.Pairwise (fun p q => p.1 ≠ q.1) →
    (∀ p ∈ l, dictGet d p.1 = some p.2 ∧ p.2.status = "loaded") →
    sumLoaded d = current - freed →
    sumLoaded (evictLoop target current freed l d).1 ≤ target ∨
    sumLoaded (evictLoop target current freed l d).1
      = sumLoaded d - (l.map (fun p => p.2.size_gb)).sum := by
  induction l with
  | nil =>
    intro freed d _ _ _
    right
    simp [evictLoop]
  | cons hd tl ih =>
    intro freed d hPair hMem hSum
    rcases hd with ⟨name, info⟩
    by_cases hstop : current - freed ≤ target
    · left
      simp only [evictLoop, hstop, if_pos]
      exact hSum ▸ hstop
    · have hget : dictGet d name = some info :=
        (hMem _ (List.mem_cons_self _ _)).1
      have hld : info.status = "loaded" :=
        (hMem _ (List.mem_cons_self _ _)).2
      have hne : ({ info with status := "unloaded" } : ModelInfo).status
          ≠ "loaded" := by simp
      have hsum' : sumLoaded (dictSet d name { info with status := "unloaded" })
          = sumLoaded d - info.size_gb :=
        sumLoaded_dictSet_unload hget hld hne
      rcases List.pairwise_cons.mp hPair with ⟨hhd, htl⟩
      have hMem' : ∀ p ∈ tl,
          dictGet (dictSet d name { info with status := "unloaded" }) p.1
            = some p.2 ∧ p.2.status = "loaded" := by
        intro p hp
        have hne2 : p.1 ≠ name := fun he => (hhd p hp) he.symm
        rw [dictGet_dictSet_ne _ _ _ _ hne2]
        exact hMem p (List.mem_cons_of_mem _ hp)
      have hSum2 : sumLoaded (dictSet d name { info with status := "unloaded" })
          = current - (freed + info.size_gb) := by
        rw [hsum', hSum]; ring
      have := ih (freed + info.size_gb) _ htl hMem' hSum2
      simp only [evictLoop, hstop, if_neg, not_false_iff]
      rcases this with h | h
      · left; exact h
      · right
        rw [h, hsum']
        simp only [List.map_cons, List.sum_cons]
        ring

theorem evictLoop_notLoadedAt (target current : ℚ) (n : String)
    (l : List (String × ModelInfo)) :
    ∀ (freed : ℚ) (d : List (String × ModelInfo)), notLoadedAt d n →
    notLoadedAt (evictLoop target current freed l d).1 n := by
  induction l with
  | nil => intro freed d h; simpa [evictLoop] using h
  | cons hd tl ih =>
    intro freed d h
    rcases hd with ⟨name, info⟩
    by_cases hstop : current - freed ≤ target
    · simpa [evictLoop, hstop] using h
    · simp only [evictLoop, hstop, if_neg, not_false_iff]
      apply ih
      intro j hj
      by_cases he : n = name
      · subst he
        rw [dictGet_dictSet_self] at hj
        obtain rfl := Option.some.inj hj
        simp
      · rw [dictGet_dictSet_ne _ _ _ _ he] at hj
        exact h j hj

theorem evictLoop_keysNodup (target current : ℚ)
    (l : List (String × ModelInfo)) :
    ∀ (freed : ℚ) (d : List (String × ModelInfo)), (keys d).Nodup →
    (keys (evictLoop target current freed l d).1).Nodup := by
  induction l with
  | nil => intro freed d h; simpa [evictLoop] using h
  | cons hd tl ih =>
    intro freed d h
    rcases hd with ⟨name, info⟩
    by_cases hstop : current - freed ≤ target
    · simpa [evictLoop, hstop] using h
    · simp only [evictLoop, hstop, if_neg, not_false_iff]
      exact ih _ _ (keysNodup_dictSet _ h)

theorem evictLoop_values (target current : ℚ) (P : ModelInfo → Prop)
    (hP : ∀ i, P i → P { i with status := "unloaded" })
    (l : List (String × ModelInfo)) :
    ∀ (freed : ℚ) (d : List (String × ModelInfo)),
    (∀ p ∈ d, P p.2) → (∀ p ∈ l, P p.2) →
    ∀ p ∈ (evictLoop target current freed l d).1, P p.2 := by
  induction l with
  | nil => intro freed d hd _; simpa [evictLoop] using hd
  | cons hd tl ih =>
    intro freed d hdv hlv
    rcases hd with ⟨name, info⟩
    by_cases hstop : current - freed ≤ target
    · simpa [evictLoop, hstop] using hdv
    · simp only [evictLoop, hstop, if_neg, not_false_iff]
      apply ih
      · intro p hp
        rcases mem_dictSet hp with h1 | h1
        · exact hdv p h1
        · subst h1
          exact hP info (hlv _ (List.mem_cons_self _ _))
      · intro p hp
        exact hlv p (List.mem_cons_of_mem _ hp)

theorem sortedLoaded_props (d : List (String × ModelInfo))
    (hnd : (keys d).Nodup) :
    (stableSortBy evictKeyLt (d.filter (fun p => p.2.status = "loaded"))).Pairwise
        (fun p q => p.1 ≠ q.1) ∧
    (∀ p ∈ stableSortBy evictKeyLt (d.filter (fun p => p.2.status = "loaded")),
        dictGet d p.1 = some p.2 ∧ p.2.status = "loaded") ∧
    ((stableSortBy evictKeyLt (d.filter (fun p => p.2.status = "loaded"))).map
        (fun p => p.2.size_gb)).sum = sumLoaded d := by
  have hperm :=
    stableSortBy_perm evictKeyLt (d.filter (fun p => p.2.status = "loaded"))
  refine ⟨?_, ?_, ?_⟩
  · have hfnd : ((d.filter (fun p => p.2.status = "loaded")).map Prod.fst).Nodup :=
      ((List.filter_sublist d).map Prod.fst).nodup hnd
    have hsnd : ((stableSortBy evictKeyLt
        (d.filter (fun p => p.2.status = "loaded"))).map Prod.fst).Nodup :=
      ((hperm.map Prod.fst).nodup_iff).mpr hfnd
    exact List.pairwise_map.mp hsnd
  · intro p hp
    have hp2 := hperm.mem_iff.mp hp
    rcases List.mem_filter.mp hp2 with ⟨hmem, hload⟩
    have hload' : p.2.status = "loaded" := of_decide_eq_true hload
    rcases p with ⟨pk, pv⟩
    exact ⟨dictGet_of_mem hnd hmem, hload'⟩
  · rw [(hperm.map (fun p => p.2.size_gb)).sum_eq, sumLoaded_eq_filterSum d]

theorem freeMemoryForModel_max (m : AIMemoryManager) (r : ℚ) :
    (freeMemoryForModel m r).1.max_memory_gb = m.max_memory_gb := by
  by_cases h : getCurrentMemoryUsage m ≤ m.max_memory_gb - r
  · simp [freeMemoryForModel, h]
  · simp [freeMemoryForModel, h]

theorem freeMemoryForModel_specs (m : AIMemoryManager) (r : ℚ) :
    (freeMemoryForModel m r).1.model_specs = m.model_specs := by
  by_cases h : getCurrentMemoryUsage m ≤ m.max_memory_gb - r
  · simp [freeMemoryForModel, h]
  · simp [freeMemoryForModel, h]

theorem freeMemoryForModel_sum (m : AIMemoryManager) (r : ℚ)
    (hnd : (keys m.loaded_models).Nodup) :
    sumLoaded (freeMemoryForModel m r).1.loaded_models
      ≤ max (m.max_memory_gb - r) 0 := by
  by_cases h : getCurrentMemoryUsage m ≤ m.max_memory_gb - r
  · simp only [freeMemoryForModel, h, if_pos]
    exact le_max_of_le_left h
  · obtain ⟨hPair, hMem, hSumEq⟩ := sortedLoaded_props m.loaded_models hnd
    have hS : sumLoaded m.loaded_models = getCurrentMemoryUsage m - 0 := by
      simp [getCurrentMemoryUsage]
    have hdisj := evictLoop_sum (m.max_memory_gb - r) (getCurrentMemoryUsage m)
      _ 0 m.loaded_models hPair hMem hS
    simp only [freeMemoryForModel, h, if_neg, not_false_iff]
    rcases hdisj with h1 | h1
    · exact le_max_of_le_left h1
    · rw [h1, hSumEq]
      simp [getCurrentMemoryUsage]

theorem freeMemoryForModel_notLoadedAt (m : AIMemoryManager) (r : ℚ)
    (n : String) (h : notLoadedAt m.loaded_models n) :
    notLoadedAt (freeMemoryForModel m r).1.loaded_models n := by
  by_cases hc : getCurrentMemoryUsage m ≤ m.max_memory_gb - r
  · simpa [freeMemoryForModel, hc] using h
  · simp only [freeMemoryForModel, hc, if_neg, not_false_iff]
    exact evictLoop_notLoadedAt _ _ _ _ _ _ h

theorem freeMemoryForModel_keysNodup (m : AIMemoryManager) (r : ℚ)
    (hnd : (keys m.loaded_models).Nodup) :
    (keys (freeMemoryForModel m r).1.loaded_models).Nodup := by
  by_cases hc : getCurrentMemoryUsage m ≤ m.max_memory_gb - r
  · simpa [freeMemoryForModel, hc] using hnd
  · simp only [freeMemoryForModel, hc, if_neg, not_false_iff]
    exact evictLoop_keysNodup _ _ _ _ _ hnd

theorem freeMemoryForModel_values (m : AIMemoryManager) (r : ℚ)
    (P : ModelInfo → Prop) (hP : ∀ i, P i → P { i with status := "unloaded" })
    (hd : ∀ p ∈ m.loaded_models, P p.2) :
    ∀ p ∈ (freeMemoryForModel m r).1.loaded_models, P p.2 := by
  by_cases hc : getCurrentMemoryUsage m ≤ m.max_memory_gb - r
  · simpa [freeMemoryForModel, hc] using hd
  · simp only [freeMemoryForModel, hc, if_neg, not_false_iff]
    apply evictLoop_values _ _ P hP _ _ _ hd
    intro p hp
    have hp2 := (stableSortBy_perm evictKeyLt _).mem_iff.mp hp
    exact hd p (List.mem_filter.mp hp2).1

/-- State invariant for the amended budget claim: unique model names, every
declared size within `[0, max_memory_gb]`, and the resident total within the
budget. -/
def InvM (m : AIMemoryManager) : Prop :=
  (keys m.loaded_models).Nodup ∧
  (∀ p ∈ m.model_specs, 0 ≤ p.2.size_gb ∧ p.2.size_gb ≤ m.max_memory_gb) ∧
  (∀ p ∈ m.loaded_models, 0 ≤ p.2.size_gb ∧ p.2.size_gb ≤ m.max_memory_gb) ∧
  sumLoaded m.loaded_models ≤ m.max_memory_gb

theorem smartModelLoadSlow_inv (m : AIMemoryManager) (name : String)
    (ok : Bool) (now dur : ℚ) (hInv : InvM m)
    (hnl : notLoadedAt m.loaded_models name) :
    InvM (smartModelLoadSlow m name ok now dur).2 := by
  obtain ⟨hnd, hspecs, hloadv, hsum⟩ := hInv
  have hmax0 : 0 ≤ m.max_memory_gb :=
    le_trans (sumLoaded_nonneg (fun p hp => (hloadv p hp).1)) hsum
  unfold smartModelLoadSlow
  cases hspec : dictGet m.model_specs name with
  | none =>
    exact ⟨hnd, hspecs, hloadv, hsum⟩
  | some specInfo =>
    have hmib : 0 ≤ ((dictGet m.loaded_models name).getD specInfo).size_gb ∧
        ((dictGet m.loaded_models name).getD specInfo).size_gb
          ≤ m.max_memory_gb := by
      cases hg : dictGet m.loaded_models name with
      | none =>
        simp only [hg, Option.getD_none]
        exact hspecs _ (mem_of_dictGet hspec)
      | some j =>
        simp only [hg, Option.getD_some]
        exact hloadv _ (mem_of_dictGet hg)
    dsimp only
    set mi := (dictGet m.loaded_models name).getD specInfo with hmi
    set r := mi.size_gb with hr
    set m1 := if m.max_memory_gb < getCurrentMemoryUsage m + r then
      (freeMemoryForModel m r).1 else m with hm1
    have hm1max : m1.max_memory_gb = m.max_memory_gb := by
      rw [hm1]; split
      · exact freeMemoryForModel_max m r
      · rfl
    have hm1specs : m1.model_specs = m.model_specs := by
      rw [hm1]; split
      · exact freeMemoryForModel_specs m r
      · rfl
    have hm1nd : (keys m1.loaded_models).Nodup := by
      rw [hm1]; split
      · exact freeMemoryForModel_keysNodup m r hnd
      · exact hnd
    have hm1nl : notLoadedAt m1.loaded_models name := by
      rw [hm1]; split
      · exact freeMemoryForModel_notLoadedAt m r name hnl
      · exact hnl
    have hm1vals : ∀ p ∈ m1.loaded_models,
        0 ≤ p.2.size_gb ∧ p.2.size_gb ≤ m.max_memory_gb := by
      rw [hm1]; split
      · exact freeMemoryForModel_values m r
          (fun i => 0 ≤ i.size_gb ∧ i.size_gb ≤ m.max_memory_gb)
          (fun i hi => hi) hloadv
      · exact hloadv
    have hm1sumr : sumLoaded m1.loaded_models + r ≤ m.max_memory_gb := by
      rw [hm1]; split
      · next hevict =>
        have h2 := freeMemoryForModel_sum m r hnd
        rcases max_cases (m.max_memory_gb - r) 0 with ⟨he, _⟩ | ⟨he, _⟩ <;>
          rw [he] at h2
        · linarith
        · linarith [hmib.2]
      · next hno =>
        have h2 : getCurrentMemoryUsage m + r ≤ m.max_memory_gb := not_lt.mp hno
        have h3 : sumLoaded m.loaded_models = getCurrentMemoryUsage m := rfl
        linarith
    have hm1sum : sumLoaded m1.loaded_models ≤ m.max_memory_gb := by
      rw [hm1]; split
      · next hevict =>
        have h2 := freeMemoryForModel_sum m r hnd
        rcases max_cases (m.max_memory_gb - r) 0 with ⟨he, _⟩ | ⟨he, _⟩ <;>
          rw [he] at h2
        · linarith [hmib.1]
        · linarith
      · exact hsum
    cases ok with
    | true =>
      refine ⟨?_, ?_, ?_, ?_⟩
      · exact keysNodup_dictSet _ hm1nd
      · intro p hp
        rw [hm1max]
        rw [hm1specs] at hp
        exact hspecs p hp
      · intro p hp
        rw [hm1max]
        rcases mem_dictSet hp with h1 | h1
        · exact hm1vals p h1
        · rw [h1]
          exact hmib
      · have hset : sumLoaded (dictSet m1.loaded_models name
            { name := mi.name, size_gb := r, last_used := now,
              load_time := dur, usage_count := mi.usage_count + 1,
              priority := mi.priority, status := "loaded" })
            = sumLoaded m1.loaded_models + r :=
          sumLoaded_dictSet_load hm1nl rfl
        show sumLoaded (dictSet m1.loaded_models name
            { name := mi.name, size_gb := r, last_used := now,
              load_time := dur, usage_count := mi.usage_count + 1,
              priority := mi.priority, status := "loaded" })
            ≤ m1.max_memory_gb
        rw [hset, hm1max]
        exact hm1sumr
    | false =>
      by_cases hc : dictContains m.loaded_models name
      · simp only [hc, if_pos]
        refine ⟨?_, ?_, ?_, ?_⟩
        · exact keysNodup_dictSet _ hm1nd
        · intro p hp
          rw [hm1max]
          rw [hm1specs] at hp
          exact hspecs p hp
        · intro p hp
          rw [hm1max]
          rcases mem_dictSet hp with h1 | h1
          · exact hm1vals p h1
          · rw [h1]
            exact hmib
        · have hset : sumLoaded (dictSet m1.loaded_models name
              { name := mi.name, size_gb := r, last_used := mi.last_used,
                load_time := mi.load_time, usage_count := mi.usage_count,
                priority := mi.priority, status := "unloaded" })
              = sumLoaded m1.loaded_models :=
            sumLoaded_dictSet_notLoaded hm1nl (by simp)
          show sumLoaded (dictSet m1.loaded_models name
              { name := mi.name, size_gb := r, last_used := mi.last_used,
                load_time := mi.load_time, usage_count := mi.usage_count,
                priority := mi.priority, status := "unloaded" })
              ≤ m1.max_memory_gb
          rw [hset, hm1max]
          exact hm1sum
      · simp only [hc, if_neg, not_false_iff, Bool.false_eq_true]
        refine ⟨hm1nd, ?_, ?_, ?_⟩
        · intro p hp
          rw [hm1max]
          rw [hm1specs] at hp
          exact hspecs p hp
        · intro p hp
          rw [hm1max]
          exact hm1vals p hp
        · rw [hm1max]
          exact hm1sum

theorem smartModelLoad_inv (m : AIMemoryManager) (name : String) (ok : Bool)
    (now dur : ℚ) (hInv : InvM m) :
    InvM (smartModelLoad m name ok now dur).2 := by
  obtain ⟨hnd, hspecs, hloadv, hsum⟩ := hInv
  unfold smartModelLoad
  cases hg : dictGet m.loaded_models name with
  | none =>
    refine smartModelLoadSlow_inv m name ok now dur ⟨hnd, hspecs, hloadv, hsum⟩ ?_
    intro j hj
    rw [hg] at hj
    cases hj
  | some info =>
    dsimp only
    by_cases hs : info.status = "loaded"
    · rw [if_pos hs]
      refine ⟨keysNodup_dictSet _ hnd, hspecs, ?_, ?_⟩
      · intro p hp
        rcases mem_dictSet hp with h1 | h1
        · exact hloadv p h1
        · rw [h1]
          exact hloadv (name, info) (mem_of_dictGet hg)
      · have hset : sumLoaded (dictSet m.loaded_models name
            { info with last_used := now,
                        usage_count := info.usage_count + 1 })
            = sumLoaded m.loaded_models :=
          sumLoaded_dictSet_same hg rfl rfl
        exact le_of_eq_of_le hset hsum
    · rw [if_neg hs]
      refine smartModelLoadSlow_inv m name ok now dur
        ⟨hnd, hspecs, hloadv, hsum⟩ ?_
      intro j hj
      rw [hg] at hj
      obtain rfl := Option.some.inj hj
      exact hs

theorem runCalls_inv (calls : List LoadCall) :
    ∀ m, InvM m → InvM (runCalls m calls) := by
  induction calls with
  | nil => intro m h; exact h
  | cons c cs ih =>
    intro m h
    exact ih _ (smartModelLoad_inv m c.model_name c.chatOk c.now c.load_dur h)

/-! ## Lemmas about the batch scheduler -/

theorem foldBest_pos (predict : ℕ → Option ℚ) (sizes : List ℕ) :
    ∀ acc : ℕ × Option ℚ, 0 < acc.1 → (∀ s ∈ sizes, 0 < s) →
    0 < (sizes.foldl (fun best size =>
      match predict size with
      | none => best
      | some t =>
        let efficiency := t * size
        match best.2 with
        | none => (size, some efficiency)
        | some b => if efficiency < b then (size, some efficiency) else best)
      acc).1 := by
  induction sizes with
  | nil => intro acc hacc _; simpa using hacc
  | cons s ss ih =>
    intro acc hacc hall
    simp only [List.foldl_cons]
    apply ih
    · cases hp : predict s with
      | none => simpa [hp] using hacc
      | some t =>
        cases hb : acc.2 with
        | none => simpa [hp, hb] using hall s (List.mem_cons_self _ _)
        | some b =>
          by_cases hlt : t * s < b
          · simpa [hp, hb, hlt] using hall s (List.mem_cons_self _ _)
          · simpa [hp, hb, hlt] using hacc
    · intro x hx
      exact hall x (List.mem_cons_of_mem _ hx)

theorem predictOptimalBatchSize_pos (e : AdaptiveBatchingEngine)
    (h1 : e.pending_requests ≠ []) (h2 : 0 < e.max_batch_size) :
    0 < predictOptimalBatchSize e := by
  unfold predictOptimalBatchSize
  cases hm : e.performance_model with
  | none =>
    exact lt_min (List.length_pos.mpr h1) h2
  | some predict =>
    dsimp only
    rw [if_neg (by simpa [List.isEmpty_iff] using h1)]
    apply foldBest_pos
    · exact Nat.one_pos
    · intro s hs
      have := List.mem_range'_1.mp hs
      omega

theorem getOptimalBatch_length (e : AdaptiveBatchingEngine) :
    (getOptimalBatch e).1.length
      = min (predictOptimalBatchSize e) e.pending_requests.length := by
  unfold getOptimalBatch
  by_cases h : e.pending_requests.isEmpty
  · rw [if_pos h]
    have : e.pending_requests = [] := by simpa [List.isEmpty_iff] using h
    simp [this, predictOptimalBatchSize]
  · rw [if_neg h]
    simp [List.length_take]

/-! ## Lemmas about the semantic cache -/

theorem simCandidates_mem {e : SemanticCacheEngine}
    {cosSim : List ℚ → List ℚ → Option ℚ} {qe : List ℚ} {k : String} {s : ℚ}
    (h : (k, s) ∈ simCandidates e cosSim qe) :
    ∃ kv ∈ e.embeddings, kv.1 = k ∧ cosSim qe kv.2.embedding = some s ∧
      e.similarity_threshold ≤ s := by
  rcases List.mem_filterMap.mp h with ⟨kv, hkv, hf⟩
  refine ⟨kv, hkv, ?_⟩
  cases hc : cosSim qe kv.2.embedding with
  | none => rw [hc] at hf; cases hf
  | some s' =>
    rw [hc] at hf
    dsimp only at hf
    by_cases ht : e.similarity_threshold ≤ s'
    · rw [if_pos ht] at hf
      obtain ⟨h1, h2⟩ := Prod.mk.inj (Option.some.inj hf)
      subst h1; subst h2
      exact ⟨rfl, rfl, ht⟩
    · rw [if_neg ht] at hf
      cases hf

theorem simCandidates_eq_nil {e : SemanticCacheEngine}
    {cosSim : List ℚ → List ℚ → Option ℚ} {qe : List ℚ}
    (h : ∀ kv ∈ e.embeddings, ∃ s, cosSim qe kv.2.embedding = some s ∧
      s < e.similarity_threshold) :
    simCandidates e cosSim qe = [] := by
  apply List.filterMap_eq_nil_iff.mpr
  intro kv hkv
  rcases h kv hkv with ⟨s, hs, hlt⟩
  rw [hs]
  dsimp only
  rw [if_neg (not_le.mpr hlt)]

theorem simCandidates_ne_nil {e : SemanticCacheEngine}
    {cosSim : List ℚ → List ℚ → Option ℚ} {qe : List ℚ}
    (hne : e.embeddings ≠ [])
    (h : ∀ kv ∈ e.embeddings, ∃ s, cosSim qe kv.2.embedding = some s ∧
      e.similarity_threshold ≤ s) :
    simCandidates e cosSim qe ≠ [] := by
  cases hemb : e.embeddings with
  | nil => exact absurd hemb hne
  | cons kv rest =>
    rcases h kv (hemb ▸ List.mem_cons_self _ _) with ⟨s, hs, hge⟩
    intro hnil
    have : (kv.1, s) ∈ simCandidates e cosSim qe := by
      apply List.mem_filterMap.mpr
      refine ⟨kv, hemb ▸ List.mem_cons_self _ _, ?_⟩
      rw [hs]
      dsimp only
      rw [if_pos hge]
    rw [hnil] at this
    cases this

theorem sortDesc_head_max {l : List (String × ℚ)} {p : String × ℚ}
    {rest : List (String × ℚ)}
    (hsort : stableSortBy (fun a b => decide (b.2 < a.2)) l = p :: rest) :
    p ∈ l ∧ ∀ q ∈ l, q.2 ≤ p.2 := by
  have hperm := stableSortBy_perm (fun a b => decide (b.2 < a.2)) l
  rw [hsort] at hperm
  have hpair : (stableSortBy (fun a b => decide (b.2 < a.2)) l).Pairwise
      (fun a b => b.2 ≤ a.2) := by
    apply stableSortBy_pairwise
    · intro a b c h1 h2
      exact le_trans h2 h1
    · intro a b h
      exact le_of_lt (of_decide_eq_true h)
    · intro a b h
      exact not_lt.mp (of_decide_eq_false h)
  rw [hsort] at hpair
  constructor
  · exact hperm.mem_iff.mp (List.mem_cons_self _ _)
  · intro q hq
    have hq' := hperm.symm.mem_iff.mp hq
    rcases List.mem_cons.mp hq' with h1 | h1
    · exact le_of_eq (congrArg Prod.snd h1)
    · exact (List.pairwise_cons.mp hpair).1 q h1

theorem dictSet_length_fresh {α : Type} {d : List (String × α)} {k : String}
    (v : α) (h : dictGet d k = none) :
    (dictSet d k v).length = d.length + 1 := by
  induction d with
  | nil => simp [dictSet]
  | cons p rest ih =>
    rcases p with ⟨pk, pv⟩
    by_cases hp : pk = k
    · simp [dictGet, hp] at h
    · simp only [dictGet, hp, if_neg, not_false_iff] at h
      simp [dictSet, hp, ih h]

theorem dictGet_filter_none_of_key {α : Type} {d : List (String × α)}
    {k : String} {p : String × α → Bool}
    (h : ∀ v, p (k, v) = false) : dictGet (d.filter p) k = none := by
  induction d with
  | nil => simp [dictGet]
  | cons q rest ih =>
    rcases q with ⟨qk, qv⟩
    by_cases hq : qk = k
    · subst hq
      simp [List.filter_cons, h qv, ih]
    · by_cases hp : p (qk, qv)
      · simp [List.filter_cons, hp, dictGet, hq, ih]
      · simp [List.filter_cons, hp, ih]

example :
    (smartModelLoad
      { max_memory_gb := 1/2, loaded_models := [],
        model_specs := [("tinyllama",
          { name := "tinyllama", size_gb := 3/5, last_used := 0,
            load_time := 0, usage_count := 0, priority := 1 })] }
      "tinyllama" true 7 1).1 = true := by
  norm_num [smartModelLoad, smartModelLoadSlow, dictGet, getCurrentMemoryUsage,
    sumLoaded, freeMemoryForModel, evictLoop, stableSortBy, dictSet]

example :
    getCurrentMemoryUsage (smartModelLoad
      { max_memory_gb := 1/2, loaded_models := [],
        model_specs := [("tinyllama",
          { name := "tinyllama", size_gb := 3/5, last_used := 0,
            load_time := 0, usage_count := 0, priority := 1 })] }
      "tinyllama" true 7 1).2 = 3/5 := by
  norm_num [smartModelLoad, smartModelLoadSlow, dictGet, getCurrentMemoryUsage,
    sumLoaded, freeMemoryForModel, evictLoop, stableSortBy, dictSet]

/-! ## Concrete fixtures for witnesses and counterexamples -/

/-- The catalog entry for tinyllama (memory_manager.py line 131),
`ModelInfo('tinyllama', 0.6, 0, 0, 0, 1)`. -/
def tinyInfo : ModelInfo :=
  { name := "tinyllama", size_gb := 3/5, last_used := 0, load_time := 0,
    usage_count := 0, priority := 1, status := "unloaded" }

/-- A manager whose budget (0.5 GB) is below tinyllama's 0.6 GB. -/
def mgrSmallBudget : AIMemoryManager :=
  { max_memory_gb := 1/2, loaded_models := [],
    model_specs := [("tinyllama", tinyInfo)] }

/-- A manager with a 1 GB budget, enough for tinyllama. -/
def mgrOneGig : AIMemoryManager :=
  { max_memory_gb := 1, loaded_models := [],
    model_specs := [("tinyllama", tinyInfo)] }

def c3infoA : ModelInfo :=
  { name := "a", size_gb := 1, last_used := 0, load_time := 0,
    usage_count := 1, priority := 1, status := "loaded" }

def c3infoB : ModelInfo :=
  { name := "b", size_gb := 1, last_used := 1, load_time := 0,
    usage_count := 1, priority := 2, status := "loaded" }

/-- Two loaded models: A (priority 1, older) and B (priority 2, newer);
budget 2 GB, fully used; catalog has a third 1 GB model "c". -/
def c3mgr : AIMemoryManager :=
  { max_memory_gb := 2,
    loaded_models := [("a", c3infoA), ("b", c3infoB)],
    model_specs := [("c",
      { name := "c", size_gb := 1, last_used := 0, load_time := 0,
        usage_count := 0, priority := 1, status := "unloaded" })] }

def c4sched : AdaptiveBatchingEngine :=
  { max_batch_size := 8, pending_requests := [⟨"q", 0, 0⟩],
    batch_history := [], performance_model := some (fun _ => none) }

def c8sched : AdaptiveBatchingEngine :=
  { max_batch_size := 8, pending_requests := [], batch_history := [],
    performance_model := none }

/-- Three queued requests and a model whose every prediction raises. -/
def c9sched : AdaptiveBatchingEngine :=
  { max_batch_size := 8,
    pending_requests := [⟨"a", 0, 0⟩, ⟨"b", 0, 1⟩, ⟨"c", 0, 2⟩],
    batch_history := [], performance_model := some (fun _ => none) }

/-! ## Claim theorems -/

/-- C1 (corrected, amended): for every sequence of `smart_model_load` calls
starting from a state with unique resident names in which every cataloged
and every resident model satisfies `0 ≤ size_gb ≤ max_memory_gb` and the
resident total is within the budget, after each call of the sequence the
sum of `size_gb` over models with status `"loaded"` is still at most
`max_memory_gb`.  (The size premise is what the missing post-eviction
headroom re-check forces; see the counterexample.) -/
theorem C1_budget_invariant_amended (m0 : AIMemoryManager)
    (calls : List LoadCall)
    (hnd : (keys m0.loaded_models).Nodup)
    (hspecs : ∀ p ∈ m0.model_specs,
      0 ≤ p.2.size_gb ∧ p.2.size_gb ≤ m0.max_memory_gb)
    (hloadv : ∀ p ∈ m0.loaded_models,
      0 ≤ p.2.size_gb ∧ p.2.size_gb ≤ m0.max_memory_gb)
    (hsum : getCurrentMemoryUsage m0 ≤ m0.max_memory_gb) :
    ∀ pre suf, calls = pre ++ suf →
      getCurrentMemoryUsage (runCalls m0 pre)
        ≤ (runCalls m0 pre).max_memory_gb := by
  intro pre suf hsplit
  exact (runCalls_inv pre m0 ⟨hnd, hspecs, hloadv, hsum⟩).2.2.2

/-- C1 witness: loading tinyllama (0.6 GB) under a 1 GB budget keeps the
resident total within the budget. -/
theorem C1_budget_invariant_amended_witness :
    getCurrentMemoryUsage (runCalls mgrOneGig [⟨"tinyllama", true, 7, 1⟩])
      ≤ (runCalls mgrOneGig [⟨"tinyllama", true, 7, 1⟩]).max_memory_gb := by
  refine C1_budget_invariant_amended mgrOneGig [⟨"tinyllama", true, 7, 1⟩]
    ?_ ?_ ?_ ?_ [⟨"tinyllama", true, 7, 1⟩] [] rfl
  · exact of_decide_eq_true (by with_unfolding_all rfl)
  · intro p hp
    simp only [mgrOneGig, List.mem_singleton] at hp
    subst hp
    exact of_decide_eq_true (by with_unfolding_all rfl)
  · intro p hp
    simp [mgrOneGig] at hp
  · exact of_decide_eq_true (by with_unfolding_all rfl)

/-- C1 counterexample: with budget 0.5 GB and the 0.6 GB tinyllama catalog
entry, the resident total starts within the budget (0 ≤ 0.5) but exceeds it
(0.6 > 0.5) after one successful `smart_model_load` call, because the code
never re-checks headroom after eviction. -/
theorem C1_budget_invariant_counterexample :
    getCurrentMemoryUsage mgrSmallBudget ≤ mgrSmallBudget.max_memory_gb ∧
    ¬ (getCurrentMemoryUsage
        (runCalls mgrSmallBudget [⟨"tinyllama", true, 7, 1⟩])
        ≤ (runCalls mgrSmallBudget
            [⟨"tinyllama", true, 7, 1⟩]).max_memory_gb) :=
  of_decide_eq_true (by with_unfolding_all rfl)

/-- C2 (code-bug evaluation): when the requested model cannot fit even
after evicting everything evictable (budget 0.5 GB, tinyllama 0.6 GB,
nothing resident), `smart_model_load` does not fail and does not leave the
state unchanged: it returns `True`, sets the model's status to `"loaded"`,
and leaves the resident total (0.6 GB) above the budget — the code has no
`ResourceExhausted` path. -/
theorem C2_no_resource_exhausted_path :
    (smartModelLoad mgrSmallBudget "tinyllama" true 7 1).1 = true ∧
    (dictGet (smartModelLoad mgrSmallBudget "tinyllama" true 7
        1).2.loaded_models "tinyllama").map ModelInfo.status
      = some "loaded" ∧
    ¬ (getCurrentMemoryUsage (smartModelLoad mgrSmallBudget "tinyllama"
        true 7 1).2 ≤ mgrSmallBudget.max_memory_gb) :=
  of_decide_eq_true (by with_unfolding_all rfl)

/-- C4: whenever the pending queue is non-empty and `max_batch_size` is
positive (the constructor default is 8 and nothing ever changes it),
`get_optimal_batch` returns a non-empty batch — with or without a fitted
performance model, and even if every per-size prediction raises. -/
theorem C4_nonempty_batch (e : AdaptiveBatchingEngine)
    (h1 : e.pending_requests ≠ []) (h2 : 0 < e.max_batch_size) :
    (getOptimalBatch e).1 ≠ [] := by
  have hlen := getOptimalBatch_length e
  intro hnil
  rw [hnil] at hlen
  simp only [List.length_nil] at hlen
  have hp := predictOptimalBatchSize_pos e h1 h2
  have hq := List.length_pos.mpr h1
  omega

/-- C4 witness: one queued request, `max_batch_size = 8`, a model present
whose every prediction raises — the drained batch is non-empty. -/
theorem C4_nonempty_batch_witness : (getOptimalBatch c4sched).1 ≠ [] :=
  C4_nonempty_batch c4sched (by decide) (by decide)

/-- C8 counterexample: two enqueues return 0 then 1; after a drain the next
enqueue returns 0 again, so the ids returned by successive enqueues are not
monotonically increasing across interleavings with `get_optimal_batch` (the
id is just the current queue length). -/
theorem C8_monotonic_ids_counterexample :
    (addRequest (addRequest c8sched "q0" 0).2 "q1" 1).1 = 1 ∧
    (addRequest (getOptimalBatch
        (addRequest (addRequest c8sched "q0" 0).2 "q1" 1).2).2 "q2" 2).1
      = 0 ∧
    ¬ ((addRequest (addRequest c8sched "q0" 0).2 "q1" 1).1 <
       (addRequest (getOptimalBatch
          (addRequest (addRequest c8sched "q0" 0).2 "q1" 1).2).2 "q2" 2).1) := by
  decide

/-- C8 (amended): `add_request` returns the queue length at enqueue time;
hence with no intervening drain, consecutive enqueues return strictly
increasing ids (each exactly one more than the previous), while a drain
that removes requests lowers the ids returned afterwards. -/
theorem C8_enqueue_ids_amended (e : AdaptiveBatchingEngine)
    (d1 d2 : String) (t1 t2 : ℚ) :
    (addRequest e d1 t1).1 = e.pending_requests.length ∧
    (addRequest (addRequest e d1 t1).2 d2 t2).1
      = (addRequest e d1 t1).1 + 1 := by
  simp [addRequest]

/-- C9 counterexample: with three queued requests, `max_batch_size = 8`,
and a performance model whose every per-size prediction raises,
`get_optimal_batch` returns 1 request, not the static fallback
`min(queueLength, maxBatchSize) = 3`. -/
theorem C9_fallback_counterexample :
    (getOptimalBatch c9sched).1.length = 1 ∧
    min c9sched.pending_requests.length c9sched.max_batch_size = 3 ∧
    ¬ ((getOptimalBatch c9sched).1.length
        = min c9sched.pending_requests.length c9sched.max_batch_size) := by
  decide

/-- C9 (amended): the static fallback `min(queueLength, maxBatchSize)` is
used only when no performance model object exists; when a model is present
and every per-size prediction raises, the errors are swallowed inside
`get_optimal_batch` and the batch has exactly one request; and a raising
regression fit is not caught by `record_batch_performance` — the exception
reaches the caller and an unfitted (always-raising) model is left behind. -/
theorem C9_prediction_fallback_amended (e : AdaptiveBatchingEngine)
    (hq : e.pending_requests ≠ []) :
    (e.performance_model = none →
      (getOptimalBatch e).1.length
        = min e.pending_requests.length e.max_batch_size) ∧
    (∀ p, e.performance_model = some p → (∀ s, p s = none) →
      (getOptimalBatch e).1.length = 1) ∧
    (∀ bs pt aq sl mem now,
      10 ≤ (pushHistory e.batch_history ⟨bs, pt, aq, sl, mem, now⟩).length →
      (pushHistory e.batch_history ⟨bs, pt, aq, sl, mem, now⟩).length % 10
        = 0 →
      (recordBatchPerformance e bs pt aq sl mem now (Except.error ())).2
        = true ∧
      (recordBatchPerformance e bs pt aq sl mem now
        (Except.error ())).1.performance_model = some (fun _ => none)) := by
  refine ⟨?_, ?_, ?_⟩
  · intro hm
    rw [getOptimalBatch_length]
    have hpred : predictOptimalBatchSize e
        = min e.pending_requests.length e.max_batch_size := by
      unfold predictOptimalBatchSize
      rw [hm]
    rw [hpred]
    exact min_eq_left (min_le_left _ _)
  · intro p hm hall
    have hpred : predictOptimalBatchSize e = 1 := by
      unfold predictOptimalBatchSize
      rw [hm]
      dsimp only
      rw [if_neg (by simpa [List.isEmpty_iff] using hq)]
      have hfold : ∀ (sizes : List ℕ) (acc : ℕ × Option ℚ),
          (sizes.foldl (fun best size =>
            match p size with
            | none => best
            | some t =>
              let efficiency := t * size
              match best.2 with
              | none => (size, some efficiency)
              | some b =>
                if efficiency < b then (size, some efficiency) else best)
            acc) = acc := by
        intro sizes
        induction sizes with
        | nil => intro acc; rfl
        | cons s ss ih =>
          intro acc
          simp only [List.foldl_cons, hall s]
          exact ih acc
      rw [hfold]
    rw [getOptimalBatch_length, hpred]
    have hqlen := List.length_pos.mpr hq
    omega
  · intro bs pt aq sl mem now h10 hmod
    unfold recordBatchPerformance
    dsimp only
    rw [if_pos hmod]
    unfold trainPerformanceModel
    rw [if_neg (show ¬ ((pushHistory e.batch_history
      ⟨bs, pt, aq, sl, mem, now⟩).length < 10) by omega)]
    exact ⟨rfl, rfl⟩

/-- C9 witness: at the concrete scheduler `c9sched` the all-raising model
yields a single-request batch. -/
theorem C9_prediction_fallback_amended_witness :
    (getOptimalBatch c9sched).1.length = 1 :=
  (C9_prediction_fallback_amended c9sched (by decide)).2.1 (fun _ => none)
    rfl (fun s => rfl)

/-- C10: `get_optimal_model` returns `"tinyllama"` for every manager state,
task type, and urgency; the `urgency == "high"` branch only logs. -/
theorem C10_selectModel_constant (m : AIMemoryManager)
    (task_type urgency : String) :
    getOptimalModel m task_type urgency = "tinyllama" := by
  simp [getOptimalModel]

/-- C5: after `cache_response(Q, F, R)`, a `get_cached_response(Q, F)` is an
exact hit: it returns a response equal to R (no semantic annotations), and
the entry's recency metadata is refreshed — `access_count` goes from 1 to 2
and `last_accessed` becomes the lookup time. -/
theorem C5_exact_roundtrip (e : SemanticCacheEngine)
    (embed1 embed2 : String → List ℚ)
    (cosSim : List ℚ → List ℚ → Option ℚ) (Q F : String) (R : Response)
    (t1 t2 : ℚ) :
    (getCachedResponse (cacheResponse e embed1 Q F R t1) embed2 cosSim
        Q F t2).1 = some R ∧
    dictGet (getCachedResponse (cacheResponse e embed1 Q F R t1) embed2
        cosSim Q F t2).2.cache (cacheKey Q F)
      = some { response := R, timestamp := t1, access_count := 2,
               last_accessed := t2, query_sample := Q.take 100 } := by
  have hget : dictGet (cacheResponse e embed1 Q F R t1).cache (cacheKey Q F)
      = some { response := R, timestamp := t1, access_count := 1,
               last_accessed := t1, query_sample := Q.take 100 } := by
    unfold cacheResponse
    dsimp only
    exact dictGet_dictSet_self _ _ _
  unfold getCachedResponse
  dsimp only
  rw [hget]
  dsimp only
  exact ⟨rfl, dictGet_dictSet_self _ _ _⟩

/-- C3 counterexample: with A = (priority 1, lastUsed 0, 1 GB) and
B = (priority 2, lastUsed 1, 1 GB) both loaded under a full 2 GB budget,
loading the 1 GB model "c" evicts A — not B as the claim states: afterwards
A is `"unloaded"` while B is still `"loaded"`, and the eviction run
reports exactly `["a"]`. -/
theorem C3_eviction_order_counterexample :
    (freeMemoryForModel c3mgr 1).2 = ["a"] ∧
    ((dictGet (smartModelLoad c3mgr "c" true 9 1).2.loaded_models "a").map
      ModelInfo.status = some "unloaded") ∧
    ((dictGet (smartModelLoad c3mgr "c" true 9 1).2.loaded_models "b").map
      ModelInfo.status = some "loaded") :=
  of_decide_eq_true (by with_unfolding_all rfl)

/-- C3 (amended): eviction removes models in ascending
`(priority, last_used)` order — the LOWEST priority number goes first, ties
broken by the oldest `last_used`.  With two loaded models A and B where A
precedes B in that order (in particular A priority 1 vs B priority 2, even
though B is more recent; or equal priorities with A older), an eviction run
that needs space but for which A's size suffices unloads exactly A and
leaves B loaded. -/
theorem C3_eviction_order_amended (m : AIMemoryManager) (na nb : String)
    (A B : ModelInfo) (r : ℚ)
    (hlm : m.loaded_models = [(na, A), (nb, B)])
    (hne : na ≠ nb)
    (hA : A.status = "loaded") (hB : B.status = "loaded")
    (hlex : A.priority < B.priority ∨
      (A.priority = B.priority ∧ A.last_used < B.last_used))
    (hneed : m.max_memory_gb - r < A.size_gb + B.size_gb)
    (henough : B.size_gb ≤ m.max_memory_gb - r) :
    (freeMemoryForModel m r).2 = [na] ∧
    dictGet (freeMemoryForModel m r).1.loaded_models na
      = some { A with status := "unloaded" } ∧
    dictGet (freeMemoryForModel m r).1.loaded_models nb = some B := by
  have hcur : getCurrentMemoryUsage m = A.size_gb + B.size_gb := by
    simp [getCurrentMemoryUsage, hlm, sumLoaded, hA, hB]
  have hlt : evictKeyLt (nb, B) (na, A) = false := by
    rcases hlex with h | ⟨h1, h2⟩
    · simp [evictKeyLt, (ne_of_gt h : B.priority ≠ A.priority),
        not_lt.mpr (le_of_lt h)]
    · simp [evictKeyLt, h1, not_lt.mpr (le_of_lt h2)]
  have hsort : stableSortBy evictKeyLt
      (m.loaded_models.filter (fun p => p.2.status = "loaded"))
      = [(na, A), (nb, B)] := by
    rw [hlm]
    simp only [List.filter_cons, List.filter_nil, hA, hB, decide_True,
      if_pos]
    simp [stableSortBy, insortBy, hlt]
  have hc1 : ¬ (getCurrentMemoryUsage m ≤ m.max_memory_gb - r) := by
    rw [hcur]
    exact not_le.mpr hneed
  have hc2 : ¬ (getCurrentMemoryUsage m - 0 ≤ m.max_memory_gb - r) := by
    rw [sub_zero]
    exact hc1
  have hc3 : getCurrentMemoryUsage m - (0 + A.size_gb)
      ≤ m.max_memory_gb - r := by
    rw [hcur]
    have : A.size_gb + B.size_gb - (0 + A.size_gb) = B.size_gb := by ring
    rw [this]
    exact henough
  unfold freeMemoryForModel
  dsimp only
  rw [if_neg hc1, hsort]
  unfold evictLoop
  rw [if_neg hc2]
  dsimp only
  unfold evictLoop
  rw [if_pos hc3]
  dsimp only
  refine ⟨rfl, ?_, ?_⟩
  · rw [hlm]
    simp [dictSet, dictGet]
  · rw [hlm]
    simp [dictSet, dictGet, Ne.symm hne, hne]

/-- C3 witness: at the concrete two-model state of `c3mgr`, the amended
eviction-order theorem applies: A (priority 1) is evicted, B stays. -/
theorem C3_eviction_order_amended_witness :
    (freeMemoryForModel c3mgr 1).2 = ["a"] ∧
    dictGet (freeMemoryForModel c3mgr 1).1.loaded_models "a"
      = some { c3infoA with status := "unloaded" } ∧
    dictGet (freeMemoryForModel c3mgr 1).1.loaded_models "b"
      = some c3infoB :=
  C3_eviction_order_amended c3mgr "a" "b" c3infoA c3infoB 1 rfl
    (by decide) rfl rfl (Or.inl (by decide))
    (of_decide_eq_true (by with_unfolding_all rfl))
    (of_decide_eq_true (by with_unfolding_all rfl))

/-- C6: for a lookup with no exact key match: (i) if the similarity of the
query embedding against every stored embedding is strictly below the
threshold, the lookup returns no response; (ii) if instead every stored
embedding clears the threshold (the lowered-threshold scenario) and every
embedding key is backed by a cache entry, the lookup returns the response
of a highest-similarity candidate, annotated with the measured similarity
under `cache_similarity` and the `semantic` marker under `cache_type`. -/
theorem C6_similarity_threshold (e : SemanticCacheEngine)
    (embed : String → List ℚ) (cosSim : List ℚ → List ℚ → Option ℚ)
    (Q F : String) (now : ℚ)
    (hmiss : dictGet e.cache (cacheKey Q F) = none) :
    ((∀ kv ∈ e.embeddings, ∃ s, cosSim (embed Q) kv.2.embedding = some s ∧
        s < e.similarity_threshold) →
      (getCachedResponse e embed cosSim Q F now).1 = none) ∧
    ((e.embeddings ≠ []) →
     (∀ kv ∈ e.embeddings, ∃ s, cosSim (embed Q) kv.2.embedding = some s ∧
        e.similarity_threshold ≤ s) →
     (∀ kv ∈ e.embeddings, ∃ en, dictGet e.cache kv.1 = some en) →
      ∃ k s entry, (k, s) ∈ simCandidates e cosSim (embed Q) ∧
        (∀ q ∈ simCandidates e cosSim (embed Q), q.2 ≤ s) ∧
        dictGet e.cache k = some entry ∧
        (getCachedResponse e embed cosSim Q F now).1
          = some (dictSet (dictSet entry.response "cache_similarity"
              (JVal.q s)) "cache_type" (JVal.s "semantic"))) := by
  constructor
  · intro hbelow
    unfold getCachedResponse
    dsimp only
    rw [hmiss]
    have hcand : simCandidates e cosSim (embed Q) = [] :=
      simCandidates_eq_nil hbelow
    unfold findSimilarQueries
    by_cases hemb : e.embeddings.isEmpty
    · rw [if_pos hemb]
      rfl
    · rw [if_neg hemb, hcand]
      rfl
  · intro hne hall hback
    have hnenil := simCandidates_ne_nil hne hall
    obtain ⟨p, rest, hsort⟩ : ∃ p rest,
        stableSortBy (fun a b => decide (b.2 < a.2))
          (simCandidates e cosSim (embed Q)) = p :: rest := by
      cases hs : stableSortBy (fun a b => decide (b.2 < a.2))
          (simCandidates e cosSim (embed Q)) with
      | nil =>
        exfalso
        have hperm := stableSortBy_perm (fun a b => decide (b.2 < a.2))
          (simCandidates e cosSim (embed Q))
        rw [hs] at hperm
        exact hnenil hperm.nil_eq.symm
      | cons a as => exact ⟨a, as, rfl⟩
    obtain ⟨hpmem, hpmax⟩ := sortDesc_head_max hsort
    rcases p with ⟨pk, ps⟩
    rcases simCandidates_mem hpmem with ⟨kv, hkv, hk1, _hsim, _hthr⟩
    obtain ⟨entry, hentry⟩ := hback kv hkv
    rw [hk1] at hentry
    refine ⟨pk, ps, entry, hpmem, hpmax, hentry, ?_⟩
    unfold getCachedResponse
    dsimp only
    rw [hmiss]
    unfold findSimilarQueries
    rw [if_neg (by simpa [List.isEmpty_iff] using hne), hsort]
    rw [show (3 : ℕ) = 2 + 1 from rfl, List.take_succ_cons]
    unfold serveSimilar
    rw [hentry]

def c6entryA : CacheEntry :=
  { response := [("text", JVal.s "ra")], timestamp := 0, access_count := 1,
    last_accessed := 0, query_sample := "qa" }

def c6entryB : CacheEntry :=
  { response := [("text", JVal.s "rb")], timestamp := 0, access_count := 1,
    last_accessed := 1, query_sample := "qb" }

/-- Two cached entries whose embeddings both have similarity 80 (percent
scale) against the probe embedding `[9]`. -/
def c6eng (thr : ℚ) : SemanticCacheEngine :=
  { cache_size := 10, similarity_threshold := thr,
    cache := [("a", c6entryA), ("b", c6entryB)],
    embeddings := [("a", ⟨[1], "a", 0, 1, 1⟩), ("b", ⟨[2], "b", 0, 1, 1⟩)] }

def c6sim : List ℚ → List ℚ → Option ℚ := fun _ v =>
  match v with
  | [1] => some 80
  | [2] => some 80
  | _ => none

/-- C6 witness: with threshold 85 the lookup misses (similarities 80, 70);
with threshold 75 it returns the highest-similarity entry annotated. -/
theorem C6_similarity_threshold_witness :
    (getCachedResponse (c6eng 85) (fun _ => [9]) c6sim "zz" "f" 5).1
      = none ∧
    (∃ k s entry,
      (k, s) ∈ simCandidates (c6eng 75) c6sim [9] ∧
      (∀ q ∈ simCandidates (c6eng 75) c6sim [9], q.2 ≤ s) ∧
      dictGet (c6eng 75).cache k = some entry ∧
      (getCachedResponse (c6eng 75) (fun _ => [9]) c6sim "zz" "f" 5).1
        = some (dictSet (dictSet entry.response "cache_similarity"
            (JVal.q s)) "cache_type" (JVal.s "semantic"))) := by
  constructor
  · refine (C6_similarity_threshold (c6eng 85) (fun _ => [9]) c6sim
      "zz" "f" 5 (by decide)).1 ?_
    intro kv hkv
    simp only [c6eng, List.mem_cons, List.not_mem_nil, or_false] at hkv
    rcases hkv with rfl | rfl
    · exact ⟨80, rfl, by decide⟩
    · exact ⟨80, rfl, by decide⟩
  · refine (C6_similarity_threshold (c6eng 75) (fun _ => [9]) c6sim
      "zz" "f" 5 (by decide)).2 (by decide) ?_ ?_
    · intro kv hkv
      simp only [c6eng, List.mem_cons, List.not_mem_nil, or_false] at hkv
      rcases hkv with rfl | rfl
      · exact ⟨80, rfl, by decide⟩
      · exact ⟨80, rfl, by decide⟩
    · intro kv hkv
      simp only [c6eng, List.mem_cons, List.not_mem_nil, or_false] at hkv
      rcases hkv with rfl | rfl
      · exact ⟨c6entryA, rfl⟩
      · exact ⟨c6entryB, rfl⟩

/-- C7: storing one fresh entry into a cache holding exactly
N = `cache_size` entries (N divisible by 5, N > 0, unique keys) first
removes, in one pass, the N/5 entries with the oldest `last_accessed`
(ascending stable sort) and then inserts the new entry with
`access_count = 1`, leaving the cache at `4*(N/5) + 1 = 0.8N + 1` entries;
exactly the keys of that oldest fifth are gone. -/
theorem C7_bulk_eviction (e : SemanticCacheEngine)
    (embed : String → List ℚ) (Q F : String) (R : Response) (now : ℚ)
    (hcap : e.cache.length = e.cache_size)
    (hdvd : 5 ∣ e.cache_size) (hpos : 0 < e.cache_size)
    (hnd : (keys e.cache).Nodup)
    (hfresh : dictGet e.cache (cacheKey Q F) = none) :
    (cacheResponse e embed Q F R now).cache.length
      = 4 * (e.cache_size / 5) + 1 ∧
    dictGet (cacheResponse e embed Q F R now).cache (cacheKey Q F)
      = some { response := R, timestamp := now, access_count := 1,
               last_accessed := now, query_sample := Q.take 100 } ∧
    ∀ kv ∈ e.cache,
      (dictGet (cacheResponse e embed Q F R now).cache kv.1 = none ↔
        kv.1 ∈ ((stableSortBy
            (fun a b => decide (a.2.last_accessed < b.2.last_accessed))
            e.cache).take (e.cache.length / 5)).map Prod.fst) := by
  have hperm : (stableSortBy
      (fun a b => decide (a.2.last_accessed < b.2.last_accessed))
      e.cache).Perm e.cache := stableSortBy_perm _ _
  have hN5 : 5 ≤ e.cache_size := by
    obtain ⟨c, hc⟩ := hdvd
    omega
  have hnum : max 1 (e.cache.length / 5) = e.cache.length / 5 := by
    rw [hcap]
    omega
  have hnonempty : ¬ e.cache.isEmpty = true := by
    rw [List.isEmpty_iff]
    intro h0
    rw [h0] at hcap
    simp at hcap
    omega
  have hcapge : e.cache_size ≤ e.cache.length := le_of_eq hcap.symm
  have hkeySorted : (keys (stableSortBy
      (fun a b => decide (a.2.last_accessed < b.2.last_accessed))
      e.cache)).Nodup := ((hperm.map Prod.fst).nodup_iff).mpr hnd
  have hdisj : ∀ x ∈ ((stableSortBy
        (fun a b => decide (a.2.last_accessed < b.2.last_accessed))
        e.cache).take (e.cache.length / 5)).map Prod.fst,
      x ∉ ((stableSortBy
        (fun a b => decide (a.2.last_accessed < b.2.last_accessed))
        e.cache).drop (e.cache.length / 5)).map Prod.fst := by
    have h2 : (((stableSortBy
        (fun a b => decide (a.2.last_accessed < b.2.last_accessed))
        e.cache).take (e.cache.length / 5)).map Prod.fst ++
        ((stableSortBy
        (fun a b => decide (a.2.last_accessed < b.2.last_accessed))
        e.cache).drop (e.cache.length / 5)).map Prod.fst).Nodup := by
      rw [← List.map_append, List.take_append_drop]
      exact hkeySorted
    exact (List.nodup_append.mp h2).2.2
  -- the per-entry predicate kept by the filter
  have htake_nil : ((stableSortBy
      (fun a b => decide (a.2.last_accessed < b.2.last_accessed))
      e.cache).take (e.cache.length / 5)).filter
        (fun kv => !(((stableSortBy
          (fun a b => decide (a.2.last_accessed < b.2.last_accessed))
          e.cache).take (e.cache.length / 5)).map Prod.fst).contains kv.1)
      = [] := by
    apply List.filter_eq_nil_iff.mpr
    intro a ha
    have hct : (((stableSortBy
        (fun a b => decide (a.2.last_accessed < b.2.last_accessed))
        e.cache).take (e.cache.length / 5)).map Prod.fst).contains a.1
        = true :=
      List.elem_eq_true_of_mem (List.mem_map_of_mem Prod.fst ha)
    intro hcontr
    rw [hct] at hcontr
    exact Bool.false_ne_true hcontr
  have hdrop_self : ((stableSortBy
      (fun a b => decide (a.2.last_accessed < b.2.last_accessed))
      e.cache).drop (e.cache.length / 5)).filter
        (fun kv => !(((stableSortBy
          (fun a b => decide (a.2.last_accessed < b.2.last_accessed))
          e.cache).take (e.cache.length / 5)).map Prod.fst).contains kv.1)
      = (stableSortBy
          (fun a b => decide (a.2.last_accessed < b.2.last_accessed))
          e.cache).drop (e.cache.length / 5) := by
    apply List.filter_eq_self.mpr
    intro a ha
    have hnm : a.1 ∉ ((stableSortBy
        (fun a b => decide (a.2.last_accessed < b.2.last_accessed))
        e.cache).take (e.cache.length / 5)).map Prod.fst :=
      fun hmem => hdisj a.1 hmem (List.mem_map_of_mem Prod.fst ha)
    have hct : (((stableSortBy
        (fun a b => decide (a.2.last_accessed < b.2.last_accessed))
        e.cache).take (e.cache.length / 5)).map Prod.fst).contains a.1
        = false := by
      cases hcs : (((stableSortBy
          (fun a b => decide (a.2.last_accessed < b.2.last_accessed))
          e.cache).take (e.cache.length / 5)).map Prod.fst).contains a.1 with
      | false => rfl
      | true => exact absurd (List.elem_iff.mp hcs) hnm
    show (!(((stableSortBy
        (fun a b => decide (a.2.last_accessed < b.2.last_accessed))
        e.cache).take (e.cache.length / 5)).map Prod.fst).contains a.1) = true
    rw [hct]
    rfl
  have hevict : evictLruEntries e = { e with
      cache := e.cache.filter (fun kv => !(((stableSortBy
        (fun a b => decide (a.2.last_accessed < b.2.last_accessed))
        e.cache).take (e.cache.length / 5)).map Prod.fst).contains kv.1),
      embeddings := e.embeddings.filter (fun kv => !(((stableSortBy
        (fun a b => decide (a.2.last_accessed < b.2.last_accessed))
        e.cache).take (e.cache.length / 5)).map Prod.fst).contains kv.1) } := by
    unfold evictLruEntries
    rw [if_neg hnonempty]
    dsimp only
    rw [hnum]
  have hcr : (cacheResponse e embed Q F R now).cache
      = dictSet (e.cache.filter (fun kv => !(((stableSortBy
          (fun a b => decide (a.2.last_accessed < b.2.last_accessed))
          e.cache).take (e.cache.length / 5)).map Prod.fst).contains kv.1))
        (cacheKey Q F)
        { response := R, timestamp := now, access_count := 1,
          last_accessed := now, query_sample := Q.take 100 } := by
    unfold cacheResponse
    dsimp only
    rw [if_pos hcapge, hevict]
  have hfreshF : dictGet (e.cache.filter (fun kv => !(((stableSortBy
      (fun a b => decide (a.2.last_accessed < b.2.last_accessed))
      e.cache).take (e.cache.length / 5)).map Prod.fst).contains kv.1))
      (cacheKey Q F) = none := dictGet_filter_none _ hfresh
  have hfilter_sorted : (stableSortBy
      (fun a b => decide (a.2.last_accessed < b.2.last_accessed))
      e.cache).filter (fun kv => !(((stableSortBy
        (fun a b => decide (a.2.last_accessed < b.2.last_accessed))
        e.cache).take (e.cache.length / 5)).map Prod.fst).contains kv.1)
      = (stableSortBy
        (fun a b => decide (a.2.last_accessed < b.2.last_accessed))
        e.cache).drop (e.cache.length / 5) := by
    conv_lhs =>
      arg 2
      rw [← List.take_append_drop (e.cache.length / 5)
        (stableSortBy
          (fun a b => decide (a.2.last_accessed < b.2.last_accessed))
          e.cache)]
    rw [List.filter_append, htake_nil, hdrop_self, List.nil_append]
  have hlenfilter : (e.cache.filter (fun kv => !(((stableSortBy
      (fun a b => decide (a.2.last_accessed < b.2.last_accessed))
      e.cache).take (e.cache.length / 5)).map Prod.fst).contains kv.1)).length
      = e.cache.length - e.cache.length / 5 := by
    rw [← (hperm.filter _).length_eq, hfilter_sorted, List.length_drop,
      hperm.length_eq]
  refine ⟨?_, ?_, ?_⟩
  · rw [hcr, dictSet_length_fresh _ hfreshF, hlenfilter]
    rw [hcap]
    obtain ⟨c, hc⟩ := hdvd
    omega
  · rw [hcr]
    exact dictGet_dictSet_self _ _ _
  · intro kv hkv
    have hkne : kv.1 ≠ cacheKey Q F := by
      intro he
      have := dictGet_isSome_of_mem hkv
      rw [he, hfresh] at this
      simp at this
    rw [hcr, dictGet_dictSet_ne _ _ _ _ hkne]
    constructor
    · intro hnone
      by_contra hnotv
      have hct : (((stableSortBy
          (fun a b => decide (a.2.last_accessed < b.2.last_accessed))
          e.cache).take (e.cache.length / 5)).map Prod.fst).contains kv.1
          = false := by
        cases hcs : (((stableSortBy
            (fun a b => decide (a.2.last_accessed < b.2.last_accessed))
            e.cache).take (e.cache.length / 5)).map Prod.fst).contains kv.1 with
        | false => rfl
        | true => exact absurd (List.elem_iff.mp hcs) hnotv
      have hpredtrue : (fun kv : String × CacheEntry =>
          !(((stableSortBy
            (fun a b => decide (a.2.last_accessed < b.2.last_accessed))
            e.cache).take (e.cache.length / 5)).map Prod.fst).contains kv.1)
          kv = true := by
        show (!(((stableSortBy
            (fun a b => decide (a.2.last_accessed < b.2.last_accessed))
            e.cache).take (e.cache.length / 5)).map Prod.fst).contains kv.1)
            = true
        rw [hct]
        rfl
      have hmemf : kv ∈ e.cache.filter (fun kv => !(((stableSortBy
          (fun a b => decide (a.2.last_accessed < b.2.last_accessed))
          e.cache).take (e.cache.length / 5)).map Prod.fst).contains kv.1) :=
        List.mem_filter.mpr ⟨hkv, hpredtrue⟩
      have := dictGet_isSome_of_mem hmemf
      rw [hnone] at this
      simp at this
    · intro hvict
      apply dictGet_filter_none_of_key
      intro v
      have hct : (((stableSortBy
          (fun a b => decide (a.2.last_accessed < b.2.last_accessed))
          e.cache).take (e.cache.length / 5)).map Prod.fst).contains kv.1
          = true := List.elem_eq_true_of_mem hvict
      show (!(((stableSortBy
          (fun a b => decide (a.2.last_accessed < b.2.last_accessed))
          e.cache).take (e.cache.length / 5)).map Prod.fst).contains kv.1)
          = false
      rw [hct]
      rfl

def c7entry (t : ℚ) : CacheEntry :=
  { response := [], timestamp := t, access_count := 1, last_accessed := t,
    query_sample := "" }

/-- A cache at capacity 10 with entries whose `last_accessed` are 0..9. -/
def c7eng : SemanticCacheEngine :=
  { cache_size := 10, similarity_threshold := 85,
    cache := [("k0", c7entry 0), ("k1", c7entry 1), ("k2", c7entry 2),
      ("k3", c7entry 3), ("k4", c7entry 4), ("k5", c7entry 5),
      ("k6", c7entry 6), ("k7", c7entry 7), ("k8", c7entry 8),
      ("k9", c7entry 9)],
    embeddings := [] }

/-- C7 witness: at capacity N = 10, one more store leaves 9 = 0.8·10 + 1
entries, the new entry has `access_count = 1`, and exactly the oldest fifth
is gone. -/
theorem C7_bulk_eviction_witness :
    (cacheResponse c7eng (fun _ => []) "q" "f" [("x", JVal.q 1)] 100).cache.length
      = 4 * (c7eng.cache_size / 5) + 1 ∧
    dictGet (cacheResponse c7eng (fun _ => []) "q" "f" [("x", JVal.q 1)]
        100).cache (cacheKey "q" "f")
      = some { response := [("x", JVal.q 1)], timestamp := 100,
               access_count := 1, last_accessed := 100,
               query_sample := "q".take 100 } ∧
    ∀ kv ∈ c7eng.cache,
      (dictGet (cacheResponse c7eng (fun _ => []) "q" "f" [("x", JVal.q 1)]
          100).cache kv.1 = none ↔
        kv.1 ∈ ((stableSortBy
            (fun a b => decide (a.2.last_accessed < b.2.last_accessed))
            c7eng.cache).take (c7eng.cache.length / 5)).map Prod.fst) :=
  C7_bulk_eviction c7eng (fun _ => []) "q" "f" [("x", JVal.q 1)] 100
    (by decide) (by decide) (by decide) (by decide) (by decide)
